import Mathlib

/-!
Verification of the u2u_morphseg learning-loop engine.

The Python source (src/scripts/crf_al.py, src/scripts/crf_random.py,
src/public/py/crf_bridge.py) is shallowly embedded here:

* Python strings are `List Char`; a `Word` is the surface string, a
  `MorphList` is the ordered list of morph substrings.
* Prediction labels are single characters over {B, M, E, S, '[', ']'},
  embedded as `Char`.
* Python float arithmetic is embedded as exact rational arithmetic `ℚ`.
* Fallible Python operations (division by zero, list index errors,
  `statistics.mean` on an empty list) are embedded with `Option`:
  `none` models a raised exception.
* Python slices `l[a:b]` (which clamp and never raise) are
  `(l.drop a).take (b - a)`; `l[1:-1]` is `(l.drop 1).dropLast`.
-/

abbrev Word : Type := List Char
abbrev Morph : Type := List Char
abbrev MorphList : Type := List Morph

/-- Confidence scores (Python floats) are modelled as rationals. -/
abbrev ConfidenceScore : Type := ℚ

/-- One record of the selection pool: `(word, morphs, confidence)`,
from `ConfidenceData: TypeAlias = tuple[Word, list[Morph], ConfidenceScore]`
in crf_al.py. -/
abbrev ConfidenceData : Type := Word × MorphList × ConfidenceScore

/-- Python `str.split(sep)` on a character list: splits on every
occurrence of `sep`, keeping empty fragments (so `"".split(c) = [""]`
and separators at the ends produce empty fragments), as CPython does. -/
def pySplit (sep : Char) : List Char → List (List Char)
  | [] => [[]]
  | c :: cs =>
    if c = sep then [] :: pySplit sep cs
    else
      match pySplit sep cs with
      | [] => [[c]]
      | f :: r => (c :: f) :: r

/-- Python `l[1:-1]`: drop the first and the last element (empty when
`l` has fewer than two elements, exactly as the Python slice). -/
def pyInner {α : Type} (l : List α) : List α := (l.drop 1).dropLast

/-- BMES code of a single morph, the body of the loop in
`get_bmes_labels` (crf_al.py lines 156-170): a length-1 morph is `S`,
otherwise `B`, then `M` repeated `len(morph)-2` times, then `E`.
(Python `range(len(morph)-2)` is empty for a negative argument, which
truncated subtraction on `ℕ` reproduces.) -/
def morphCode (m : Morph) : List Char :=
  if m.length = 1 then ['S'] else 'B' :: (List.replicate (m.length - 2) 'M' ++ ['E'])

/-- `get_bmes_labels(morphs)` from crf_al.py lines 156-170: concatenate
the per-morph BMES codes in order. -/
def get_bmes_labels (morphs : MorphList) : List Char :=
  morphs.flatMap morphCode

/-- Body of the `for tok in labels` loop of `reconstruct_predictions`
(crf_al.py lines 368-385): resolve one `E`-free run into tokens.
If the run has no `S` it is one token with the consumed `E` restored;
if it is all `S` it becomes that many `S` tokens; otherwise it is split
on `S`, empty fragments becoming `S` tokens and non-empty fragments
getting an `E` appended. -/
def resolveRun (tok : List Char) : List (List Char) :=
  if 'S' ∉ tok then [tok ++ ['E']]
  else if tok.count 'S' = tok.length then List.replicate (tok.count 'S') (['S'] : List Char)
  else (pySplit 'S' tok).map (fun z => if z = [] then (['S'] : List Char) else z ++ ['E'])

/-- The morph-materialization loop of `reconstruct_predictions`
(crf_al.py lines 387-395): morph `i` is the slice
`word[pre : pre + len(new_labels[i])]` where `pre` is the total length
of the preceding tokens; `pre` is threaded as an accumulator here.
Python slices clamp at the end of `word`, which `drop`/`take` reproduce. -/
def buildMorphs (word : Word) : List (List Char) → ℕ → MorphList
  | [], _ => []
  | t :: ts, pre => (word.drop pre).take t.length :: buildMorphs word ts (pre + t.length)

/-- The token pipeline of `reconstruct_predictions` (crf_al.py lines
365-385): `labels = [label for label in joined.split('E') if label]`
followed by the run-resolution loop accumulating `new_labels`. -/
def tokensOfFrags (frags : List (List Char)) : List (List Char) :=
  (frags.filter (fun l => l ≠ [])).flatMap resolveRun

/-- Decoding of one word, the body of the `for pred, word in zip(...)`
loop of `reconstruct_predictions` (crf_al.py lines 362-397): strip the
sentinel positions, join, split on `E` discarding empty fragments,
resolve each run into tokens, then slice `word` by cumulative token
lengths. -/
def reconstruct_one (pred : List Char) (word : Word) : MorphList :=
  buildMorphs word (tokensOfFrags (pySplit 'E' (pyInner pred))) 0

/-- `reconstruct_predictions(pred_labels, words)` from crf_al.py lines
358-399: decode each zipped (prediction, word) pair. -/
def reconstruct_predictions (pred_labels : List (List Char)) (words : List Word) :
    List MorphList :=
  (pred_labels.zip words).map (fun pw => reconstruct_one pw.1 pw.2)

/-! ### Lemmas about the Python split embedding -/

theorem pySplit_ne_nil (sep : Char) (s : List Char) : pySplit sep s ≠ [] := by
  cases s with
  | nil => simp [pySplit]
  | cons c cs =>
    simp only [pySplit]
    split
    · simp
    · split <;> simp

theorem pySplit_cons_sep (sep : Char) (xs : List Char) :
    pySplit sep (sep :: xs) = [] :: pySplit sep xs := by
  simp [pySplit]

theorem pySplit_cons_of_ne {sep c : Char} (h : c ≠ sep) {xs : List Char}
    {f : List Char} {r : List (List Char)} (hs : pySplit sep xs = f :: r) :
    pySplit sep (c :: xs) = (c :: f) :: r := by
  simp only [pySplit, if_neg h, hs]

theorem pySplit_of_not_mem {sep : Char} {s : List Char} (h : sep ∉ s) :
    pySplit sep s = [s] := by
  induction s with
  | nil => rfl
  | cons c cs ih =>
    have hc : c ≠ sep := fun hcs => h (hcs ▸ List.mem_cons_self c cs)
    have hcs : sep ∉ cs := fun hm => h (List.mem_cons_of_mem c hm)
    exact pySplit_cons_of_ne hc (ih hcs)

theorem pySplit_chunk_append {sep : Char} {chunk : List Char} (h : sep ∉ chunk)
    (rest : List Char) :
    pySplit sep (chunk ++ sep :: rest) = chunk :: pySplit sep rest := by
  induction chunk with
  | nil => simpa using pySplit_cons_sep sep rest
  | cons c cs ih =>
    have hc : c ≠ sep := fun hcs => h (hcs ▸ List.mem_cons_self c cs)
    have hcs : sep ∉ cs := fun hm => h (List.mem_cons_of_mem c hm)
    simpa using pySplit_cons_of_ne hc (ih hcs)

/-! ### Lemmas about run resolution -/

theorem resolveRun_no_S {tok : List Char} (h : 'S' ∉ tok) :
    resolveRun tok = [tok ++ ['E']] := by
  simp [resolveRun, h]

theorem resolveRun_S_cons (f : List Char) (hf : f ≠ []) :
    resolveRun ('S' :: f) = ['S'] :: resolveRun f := by
  by_cases hmem : 'S' ∈ f
  · by_cases hall : f.count 'S' = f.length
    · -- the run is all `S`
      have h1 : ('S' :: f).count 'S' = ('S' :: f).length := by
        simp [List.count_cons_self, hall]
      rw [resolveRun, if_neg (by simp), if_pos h1,
          resolveRun, if_neg (by simp [hmem]), if_pos hall]
      simp [List.count_cons_self, List.replicate_succ]
    · -- mixed run: split on `S`
      have h1 : ('S' :: f).count 'S' ≠ ('S' :: f).length := by
        simp only [List.count_cons_self, List.length_cons]
        omega
      rw [resolveRun, if_neg (by simp), if_neg h1,
          resolveRun, if_neg (by simp [hmem]), if_neg hall,
          pySplit_cons_sep]
      simp
  · -- `f` has no `S`: prepending one `S` gives a mixed run with fragments
    -- `""` and `f`
    have hcount : ('S' :: f).count 'S' = 1 := by
      simp [List.count_cons_self, List.count_eq_zero.2 hmem]
    have hlen : ('S' :: f).length ≠ 1 := by
      simp only [List.length_cons]
      have : f.length ≠ 0 := fun h0 => hf (List.eq_nil_of_length_eq_zero h0)
      omega
    rw [resolveRun, if_neg (by simp), if_neg (by rw [hcount]; exact fun h => hlen h.symm),
        pySplit_cons_sep, pySplit_of_not_mem hmem, resolveRun_no_S hmem]
    simp [hf]

theorem tokensOfFrags_nil_cons (r : List (List Char)) :
    tokensOfFrags ([] :: r) = tokensOfFrags r := by
  simp [tokensOfFrags]

theorem tokensOfFrags_cons {chunk : List Char} (h : chunk ≠ []) (r : List (List Char)) :
    tokensOfFrags (chunk :: r) = resolveRun chunk ++ tokensOfFrags r := by
  simp [tokensOfFrags, List.filter_cons, h]

theorem tokensOfFrags_S_cons (f : List Char) (r : List (List Char)) :
    tokensOfFrags (('S' :: f) :: r) = ['S'] :: tokensOfFrags (f :: r) := by
  by_cases hf : f = []
  · subst hf
    rw [tokensOfFrags_cons (by simp) r, tokensOfFrags_nil_cons]
    have : resolveRun ['S'] = [['S']] := by decide
    simp [this]
  · rw [tokensOfFrags_cons (by simp) r, tokensOfFrags_cons hf r,
        resolveRun_S_cons f hf]
    simp

/-! ### The decode pipeline on encoded labels -/

theorem morphCode_single {m : Morph} (h : m.length = 1) : morphCode m = ['S'] := by
  simp [morphCode, h]

theorem morphCode_multi {m : Morph} (h : m.length ≠ 1) :
    morphCode m = 'B' :: (List.replicate (m.length - 2) 'M' ++ ['E']) := by
  simp [morphCode, h]

theorem length_morphCode {m : Morph} (h : m ≠ []) : (morphCode m).length = m.length := by
  by_cases h1 : m.length = 1
  · simp [morphCode_single h1, h1]
  · have h2 : 2 ≤ m.length := by
      have : m.length ≠ 0 := fun h0 => h (List.eq_nil_of_length_eq_zero h0)
      omega
    rw [morphCode_multi h1]
    simp only [List.length_cons, List.length_append, List.length_replicate,
      List.length_nil]
    omega

theorem tokensOfFrags_encode (M : MorphList) (hmorphs : ∀ m ∈ M, m ≠ []) :
    tokensOfFrags (pySplit 'E' (get_bmes_labels M)) = M.map morphCode := by
  induction M with
  | nil => rfl
  | cons m M' ih =>
    have hm : m ≠ [] := hmorphs m (List.mem_cons_self m M')
    have ih' := ih (fun x hx => hmorphs x (List.mem_cons_of_mem m hx))
    by_cases h1 : m.length = 1
    · -- single-character morph: the label stream starts with `S`
      have henc : get_bmes_labels (m :: M') = 'S' :: get_bmes_labels M' := by
        simp [get_bmes_labels, morphCode_single h1]
      obtain ⟨f, r, hfr⟩ := List.exists_cons_of_ne_nil (pySplit_ne_nil 'E' (get_bmes_labels M'))
      rw [henc, pySplit_cons_of_ne (by decide) hfr, tokensOfFrags_S_cons, ← hfr, ih']
      simp [morphCode_single h1]
    · -- multi-character morph: the stream starts with `B M*` then the `E`
      have henc : get_bmes_labels (m :: M') =
          ('B' :: List.replicate (m.length - 2) 'M') ++ 'E' :: get_bmes_labels M' := by
        simp [get_bmes_labels, morphCode_multi h1]
      have hnoE : 'E' ∉ 'B' :: List.replicate (m.length - 2) 'M' := by
        simp [List.mem_replicate]
      have hnoS : 'S' ∉ 'B' :: List.replicate (m.length - 2) 'M' := by
        simp [List.mem_replicate]
      rw [henc, pySplit_chunk_append hnoE, tokensOfFrags_cons (by simp) _,
          resolveRun_no_S hnoS, ih']
      simp [morphCode_multi h1]

/-! ### Lemmas about morph materialization -/

theorem buildMorphs_of_length_eq :
    ∀ (toks : List (List Char)) (M : MorphList) (w₀ : Word),
      toks.map List.length = M.map List.length →
      buildMorphs (w₀ ++ M.flatten) toks w₀.length = M := by
  intro toks
  induction toks with
  | nil =>
    intro M w₀ h
    cases M with
    | nil => rfl
    | cons m M' => simp at h
  | cons t ts ih =>
    intro M w₀ h
    cases M with
    | nil => simp at h
    | cons m M' =>
      simp only [List.map_cons, List.cons.injEq] at h
      obtain ⟨ht, hts⟩ := h
      have hflat : (m :: M').flatten = m ++ M'.flatten := List.flatten_cons
      rw [buildMorphs, hflat, List.drop_left, ht, List.take_left]
      have : w₀.length + m.length = (w₀ ++ m).length := (List.length_append w₀ m).symm
      rw [this, show w₀ ++ (m ++ M'.flatten) = (w₀ ++ m) ++ M'.flatten from
            (List.append_assoc w₀ m M'.flatten).symm]
      exact congrArg (m :: ·) (ih M' (w₀ ++ m) hts)

theorem flatten_buildMorphs (word : Word) :
    ∀ (toks : List (List Char)) (pre : ℕ),
      (buildMorphs word toks pre).flatten =
        (word.drop pre).take ((toks.map List.length).sum) := by
  intro toks
  induction toks with
  | nil => intro pre; simp [buildMorphs]
  | cons t ts ih =>
    intro pre
    rw [buildMorphs, List.flatten_cons, ih (pre + t.length), List.map_cons,
        List.sum_cons, List.take_add]
    have : word.drop (pre + t.length) = (word.drop pre).drop t.length :=
      (List.drop_drop t.length pre word).symm
    rw [this]

theorem pyInner_wrap {α : Type} (a b : α) (xs : List α) :
    pyInner ((a :: xs) ++ [b]) = xs := by
  simp [pyInner]

/-! ### Claim C1: round-trip law of the boundary-label codec -/

/-- C1. Round-trip law: for every nonempty `MorphList` whose elements
are non-empty, decoding the sentinel-wrapped label sequence
`['['] ++ get_bmes_labels M ++ [']']` over the word `concat M` via
`reconstruct_predictions` reproduces `M` exactly. -/
theorem roundtrip_decode_encode (M : MorphList) (hM : M ≠ [])
    (hmorphs : ∀ m ∈ M, m ≠ []) :
    reconstruct_predictions [('[' :: get_bmes_labels M) ++ [']']] [M.flatten] = [M] := by
  have _ := hM
  have hpipe : reconstruct_predictions [('[' :: get_bmes_labels M) ++ [']']] [M.flatten]
      = [reconstruct_one (('[' :: get_bmes_labels M) ++ [']']) M.flatten] := rfl
  rw [hpipe]
  congr 1
  rw [reconstruct_one, pyInner_wrap, tokensOfFrags_encode M hmorphs]
  have hlen : (M.map morphCode).map List.length = M.map List.length := by
    rw [List.map_map]
    exact List.map_congr_left (fun m hm => length_morphCode (hmorphs m hm))
  have := buildMorphs_of_length_eq (M.map morphCode) M [] hlen
  simpa using this

/-- Witness for C1 at the concrete input `M = [['u','n'], ['h','a','p','p','y']]`. -/
theorem roundtrip_decode_encode_witness :
    (([['u','n'], ['h','a','p','p','y']] : MorphList) ≠ []) ∧
    (∀ m ∈ ([['u','n'], ['h','a','p','p','y']] : MorphList), m ≠ []) ∧
    reconstruct_predictions
      [('[' :: get_bmes_labels [['u','n'], ['h','a','p','p','y']]) ++ [']']]
      [([['u','n'], ['h','a','p','p','y']] : MorphList).flatten]
      = [[['u','n'], ['h','a','p','p','y']]] :=
  ⟨by decide, by decide,
    roundtrip_decode_encode [['u','n'], ['h','a','p','p','y']] (by decide) (by decide)⟩

/-! ### Claim C2: decoded-length invariant (refuted, amended to an upper bound) -/

/-- C2 counterexample: for the word `"ab"` and the sentinel-wrapped
ill-formed tag sequence `['[','S','E',']']` (length `len(word)+2`,
labels drawn from {B,M,E,S,'[',']'}), the decoder returns `["a"]`,
whose morph lengths sum to 1, not `len(word) = 2`: the `E` that
terminates an all-`S` run is silently dropped. -/
theorem decoded_length_counterexample :
    (['[','S','E',']'] : List Char).length = (['a','b'] : Word).length + 2 ∧
    reconstruct_one ['[','S','E',']'] ['a','b'] = [['a']] ∧
    ((reconstruct_one ['[','S','E',']'] ['a','b']).map List.length).sum ≠
      (['a','b'] : Word).length := by
  refine ⟨by decide, by decide, by decide⟩

/-- C2 amended: for every word and every sentinel-wrapped tag sequence
of length `len(word)+2`, the decoded morph lengths sum to at most
`len(word)` (each character is covered at most once, not exactly once). -/
theorem decoded_length_le (tags : List Char) (word : Word)
    (hlen : tags.length = word.length + 2) :
    ((reconstruct_one tags word).map List.length).sum ≤ word.length := by
  have _ := hlen
  have hsum : ((reconstruct_one tags word).map List.length).sum
      = (reconstruct_one tags word).flatten.length := (List.length_flatten _).symm
  rw [hsum, reconstruct_one, flatten_buildMorphs]
  simp [List.length_take]

/-- Witness for the amended C2 at the counterexample input itself. -/
theorem decoded_length_le_witness :
    (['[','S','E',']'] : List Char).length = (['a','b'] : Word).length + 2 ∧
    ((reconstruct_one ['[','S','E',']'] ['a','b']).map List.length).sum ≤
      (['a','b'] : Word).length :=
  ⟨by decide, decoded_length_le ['[','S','E',']'] ['a','b'] (by decide)⟩

/-! ### Claim C3: decoder totality -/

/-- C3. Decoder totality: `reconstruct_predictions` is a total function
of its inputs — every zipped (tag sequence, word) pair produces a
decoded `MorphList` (the embedding needs no `Option`, because no
operation of the Python decoder can raise: all its slices clamp), so a
malformed tag sequence is never rejected, only reinterpreted. -/
theorem reconstruct_predictions_total (pred_labels : List (List Char))
    (words : List Word) :
    (reconstruct_predictions pred_labels words).length
        = min pred_labels.length words.length ∧
    ∀ pred word, reconstruct_predictions (pred :: pred_labels) (word :: words)
        = reconstruct_one pred word :: reconstruct_predictions pred_labels words := by
  constructor
  · simp [reconstruct_predictions]
  · intro pred word
    rfl

/-! ### Claim C10: decoded morphs are in-order contiguous slices, a take of the word -/

/-- C10. Implicit decoder guarantee: for every tag sequence and word,
the decoded morphs are consecutive contiguous slices of the word
starting at index 0, so their in-order concatenation is `word.take n`
for some `n ≤ len(word)` — a (possibly proper) prefix of the word; the
decoder never reorders, overlaps, or invents characters. -/
theorem reconstruct_flatten_take (pred : List Char) (word : Word) :
    reconstruct_predictions [pred] [word] = [reconstruct_one pred word] ∧
    ∃ n, n ≤ word.length ∧ (reconstruct_one pred word).flatten = word.take n := by
  refine ⟨rfl, ?_⟩
  rw [reconstruct_one, flatten_buildMorphs]
  rcases le_total ((tokensOfFrags (pySplit 'E' (pyInner pred))).map List.length).sum
      word.length with h | h
  · exact ⟨_, h, by simp⟩
  · refine ⟨word.length, le_refl _, ?_⟩
    simp only [List.drop_zero]
    rw [List.take_of_length_le h, List.take_length]

/-! ### Confidence scorer and active-learning selector -/

/-- Per-position marginal distribution
(`CharMarginals: TypeAlias = dict[PredictionLabel, float]` in crf_al.py).
The CRF's `predict_marginals` assigns every label a probability, so the
dict lookup is embedded as a total function on labels. -/
abbrev CharMarginals : Type := Char → ℚ

/-- The sum
`sum(boundless_marg[i][label] for i, label in enumerate(boundless_pred))`
of `get_confidence_scores` (crf_al.py line 272): walk the predicted
labels, indexing the marginal list by position; running past the end of
the marginal list is an IndexError in Python, embedded as `none`. -/
def marginalSum : List Char → List CharMarginals → Option ℚ
  | [], _ => some 0
  | _ :: _, [] => none
  | p :: ps, m :: ms => (marginalSum ps ms).map (fun s => m p + s)

/-- `get_confidence_scores(words, predictions, marginals)` from crf_al.py
lines 266-274: for each zipped (word, prediction, marginal) triple, strip
the sentinel positions from prediction and marginals (`[1:-1]`), sum each
inner position's marginal probability of its own predicted label, and
divide by `len(word)`.  A raised IndexError or ZeroDivisionError aborts
the whole call (`none`). -/
def get_confidence_scores (words : List Word) (predictions : List (List Char))
    (marginals : List (List CharMarginals)) : Option (List ConfidenceScore) :=
  (words.zip (predictions.zip marginals)).mapM (fun wpm =>
    match marginalSum (pyInner wpm.2.1) (pyInner wpm.2.2) with
    | none => none
    | some s => if wpm.1.length = 0 then none else some (s / (wpm.1.length : ℚ)))

/-- `sort_by_confidence(words, morphs, confscores)` from crf_al.py lines
276-290: zip the three parallel lists into records and sort ascending by
the confidence component.  Python `sorted` with `key=lambda x: x[2]` is
a stable ascending sort, embedded as `List.mergeSort` (the unique stable
sort with this ordering). -/
def sort_by_confidence (words : List Word) (morphs : List MorphList)
    (confscores : List ConfidenceScore) : List ConfidenceData :=
  (words.zip (morphs.zip confscores)).mergeSort (fun a b => decide (a.2.2 ≤ b.2.2))

/-- `split_increment_residual(confidence_data, select_interval)` from
crf_al.py lines 309-314: `confidence_data[:select_interval]` and
`confidence_data[select_interval:]`. -/
def split_increment_residual (confidence_data : List ConfidenceData)
    (select_interval : ℕ) : List ConfidenceData × List ConfidenceData :=
  (confidence_data.take select_interval, confidence_data.drop select_interval)

/-- The increment cap of `run_training_cycle` (crf_bridge.py lines
70-77): `min(incrementSize, pool_size - 1)` when the pool has more than
one record, else the whole pool. -/
def safe_increment (pool_size raw_increment : ℕ) : ℕ :=
  if pool_size > 1 then min raw_increment (pool_size - 1) else pool_size

/-! ### Claim C4: selector increment cap -/

/-- C4. Selector increment cap: with the bridge's capped interval, a
pool of size `P > 1` yields an increment of size exactly
`min(k, P - 1)` and a nonempty residual; a pool of size `P ≤ 1` is
consumed entirely. -/
theorem selector_increment_cap (pool : List ConfidenceData) (k : ℕ) :
    (1 < pool.length →
      (split_increment_residual pool (safe_increment pool.length k)).1.length
          = min k (pool.length - 1) ∧
      (split_increment_residual pool (safe_increment pool.length k)).2 ≠ []) ∧
    (pool.length ≤ 1 →
      (split_increment_residual pool (safe_increment pool.length k)).1.length
          = pool.length) := by
  constructor
  · intro hP
    have hsafe : safe_increment pool.length k = min k (pool.length - 1) := by
      simp [safe_increment, hP]
    constructor
    · rw [hsafe]
      simp only [split_increment_residual, List.length_take]
      omega
    · rw [hsafe]
      simp only [split_increment_residual]
      intro hnil
      have := congrArg List.length hnil
      simp only [List.length_drop, List.length_nil] at this
      omega
  · intro hP
    have hsafe : safe_increment pool.length k = pool.length := by
      simp only [safe_increment]
      rw [if_neg (by omega)]
    rw [hsafe]
    simp [split_increment_residual, List.length_take]

/-- Witness for C4 at a concrete pool of three records and `k = 5`:
the increment has `min 5 2 = 2` records and the residual is nonempty. -/
theorem selector_increment_cap_witness :
    (split_increment_residual
        [((['a'] : Word), ([['a']] : MorphList), (1 : ℚ)),
         ((['b'] : Word), ([['b']] : MorphList), (2 : ℚ)),
         ((['c'] : Word), ([['c']] : MorphList), (3 : ℚ))]
        (safe_increment 3 5)).1.length = min 5 2 ∧
    (split_increment_residual
        [((['a'] : Word), ([['a']] : MorphList), (1 : ℚ)),
         ((['b'] : Word), ([['b']] : MorphList), (2 : ℚ)),
         ((['c'] : Word), ([['c']] : MorphList), (3 : ℚ))]
        (safe_increment 3 5)).2 ≠ [] :=
  (selector_increment_cap
    [((['a'] : Word), ([['a']] : MorphList), (1 : ℚ)),
     ((['b'] : Word), ([['b']] : MorphList), (2 : ℚ)),
     ((['c'] : Word), ([['c']] : MorphList), (3 : ℚ))] 5).1 (by simp)

/-! ### Claim C5: sort-and-partition exactness -/

/-- C5. Selector sort-and-partition exactness: `sort_by_confidence`
produces a list ordered ascending by confidence that is a permutation of
the zipped input pool, stable in the sense that the records of any fixed
confidence value appear in their original input order; and
`split_increment_residual` partitions it so increment ++ residual is the
sorted pool exactly — no duplication, no loss. -/
theorem sort_partition_exact (words : List Word) (morphs : List MorphList)
    (confscores : List ConfidenceScore) (select_interval : ℕ) :
    List.Pairwise (fun a b : ConfidenceData => a.2.2 ≤ b.2.2)
        (sort_by_confidence words morphs confscores) ∧
    (sort_by_confidence words morphs confscores).Perm
        (words.zip (morphs.zip confscores)) ∧
    (∀ c : ℚ, (sort_by_confidence words morphs confscores).filter
          (fun r => decide (r.2.2 = c))
        = (words.zip (morphs.zip confscores)).filter (fun r => decide (r.2.2 = c))) ∧
    (split_increment_residual (sort_by_confidence words morphs confscores)
          select_interval).1 ++
      (split_increment_residual (sort_by_confidence words morphs confscores)
          select_interval).2
      = sort_by_confidence words morphs confscores := by
  have htrans : ∀ a b c : ConfidenceData,
      (fun a b : ConfidenceData => decide (a.2.2 ≤ b.2.2)) a b = true →
      (fun a b : ConfidenceData => decide (a.2.2 ≤ b.2.2)) b c = true →
      (fun a b : ConfidenceData => decide (a.2.2 ≤ b.2.2)) a c = true := by
    intro a b c hab hbc
    simp only [decide_eq_true_eq] at hab hbc ⊢
    exact le_trans hab hbc
  have htotal : ∀ a b : ConfidenceData,
      ((fun a b : ConfidenceData => decide (a.2.2 ≤ b.2.2)) a b ||
       (fun a b : ConfidenceData => decide (a.2.2 ≤ b.2.2)) b a) = true := by
    intro a b
    simp only [Bool.or_eq_true, decide_eq_true_eq]
    exact le_total _ _
  refine ⟨?_, ?_, ?_, ?_⟩
  · have := List.sorted_mergeSort htrans htotal (words.zip (morphs.zip confscores))
    exact this.imp (fun h => of_decide_eq_true h)
  · exact List.mergeSort_perm _ _
  · intro c
    set p : ConfidenceData → Bool := fun r => decide (r.2.2 = c) with hp
    set pool : List ConfidenceData := words.zip (morphs.zip confscores) with hpool
    have hApw : (pool.filter p).Pairwise
        (fun a b : ConfidenceData => decide (a.2.2 ≤ b.2.2) = true) := by
      apply List.pairwise_of_forall_mem_list
      intro a ha b hb
      have ha' : a.2.2 = c := by
        have := (List.mem_filter.1 ha).2
        simpa [hp] using this
      have hb' : b.2.2 = c := by
        have := (List.mem_filter.1 hb).2
        simpa [hp] using this
      simp [ha', hb']
    have hsubl : (pool.filter p).Sublist
        (pool.mergeSort (fun a b : ConfidenceData => decide (a.2.2 ≤ b.2.2))) :=
      List.sublist_mergeSort htrans htotal hApw (List.filter_sublist pool)
    have hAfix : (pool.filter p).filter p = pool.filter p :=
      List.filter_eq_self.2 (fun a ha => (List.mem_filter.1 ha).2)
    have hAB : (pool.filter p).Sublist
        ((pool.mergeSort (fun a b : ConfidenceData => decide (a.2.2 ≤ b.2.2))).filter p) :=
      hAfix ▸ hsubl.filter p
    have hlen : ((pool.mergeSort
          (fun a b : ConfidenceData => decide (a.2.2 ≤ b.2.2))).filter p).length
        = (pool.filter p).length := by
      rw [← List.countP_eq_length_filter, ← List.countP_eq_length_filter]
      exact (List.mergeSort_perm pool _).countP_eq p
    exact (hAB.eq_of_length hlen.symm).symm
  · exact List.take_append_drop _ _

/-! ### Claim C6: confidence score definition and bounds -/

theorem marginalSum_bound :
    ∀ (preds : List Char) (margs : List CharMarginals),
      preds.length ≤ margs.length →
      (∀ m ∈ margs, ∀ c : Char, 0 ≤ m c ∧ m c ≤ 1) →
      ∃ s : ℚ, marginalSum preds margs = some s ∧ 0 ≤ s ∧ s ≤ preds.length := by
  intro preds
  induction preds with
  | nil =>
    intro margs _ _
    exact ⟨0, rfl, le_refl 0, by simp⟩
  | cons p ps ih =>
    intro margs hlen hbound
    cases margs with
    | nil => simp at hlen
    | cons m ms =>
      have hlen' : ps.length ≤ ms.length := by
        simp only [List.length_cons] at hlen
        omega
      obtain ⟨s, hs, hs0, hs1⟩ := ih ms hlen'
        (fun m' hm' c => hbound m' (List.mem_cons_of_mem m hm') c)
      have hm := hbound m (List.mem_cons_self m ms) p
      refine ⟨m p + s, ?_, by linarith [hm.1], ?_⟩
      · simp [marginalSum, hs]
      · simp only [List.length_cons, Nat.cast_add, Nat.cast_one]
        linarith [hm.2]

/-- C6. Confidence score bounds: for a non-empty word, a predicted tag
sequence of length `len(word)+2`, and position-aligned marginals whose
entries all lie in [0,1], `get_confidence_scores` strips the sentinel
positions, sums each inner position's marginal probability of its own
predicted tag, divides by `len(word)`, and the resulting score lies in
[0,1]. -/
theorem confidence_score_bounds (word : Word) (pred : List Char)
    (marg : List CharMarginals)
    (hw : word ≠ []) (hp : pred.length = word.length + 2)
    (hm : marg.length = pred.length)
    (hbound : ∀ m ∈ marg, ∀ c : Char, 0 ≤ m c ∧ m c ≤ 1) :
    ∃ q : ConfidenceScore,
      get_confidence_scores [word] [pred] [marg] = some [q] ∧ 0 ≤ q ∧ q ≤ 1 := by
  have hpi : (pyInner pred).length = word.length := by
    simp only [pyInner, List.length_dropLast, List.length_drop]
    omega
  have hmi : (pyInner marg).length = pred.length - 2 := by
    simp only [pyInner, List.length_dropLast, List.length_drop]
    omega
  have hlen : (pyInner pred).length ≤ (pyInner marg).length := by omega
  have hbound' : ∀ m ∈ pyInner marg, ∀ c : Char, 0 ≤ m c ∧ m c ≤ 1 := by
    intro m hmem c
    have h1 : m ∈ (marg.drop 1) := (List.dropLast_sublist (marg.drop 1)).subset hmem
    exact hbound m ((List.drop_sublist 1 marg).subset h1) c
  obtain ⟨s, hs, hs0, hs1⟩ := marginalSum_bound (pyInner pred) (pyInner marg) hlen hbound'
  have hwlen : 0 < word.length := List.length_pos.2 hw
  refine ⟨s / (word.length : ℚ), ?_, ?_, ?_⟩
  · simp only [get_confidence_scores, List.zip_cons_cons, List.zip_nil_right,
      List.mapM_cons, List.mapM_nil, hs]
    rw [if_neg (by omega)]
    rfl
  · exact div_nonneg hs0 (by positivity)
  · rw [div_le_one (by exact_mod_cast hwlen)]
    calc s ≤ ((pyInner pred).length : ℚ) := hs1
    _ = (word.length : ℚ) := by rw [hpi]

/-- Witness for C6 at word `"ab"`, tags `['[','S','E',']']` and constant
marginals assigning probability 1/2 to every label. -/
theorem confidence_score_bounds_witness :
    ∃ q : ConfidenceScore,
      get_confidence_scores [['a','b']] [['[','S','E',']']]
          [[fun _ => (1:ℚ)/2, fun _ => (1:ℚ)/2, fun _ => (1:ℚ)/2, fun _ => (1:ℚ)/2]]
        = some [q] ∧ 0 ≤ q ∧ q ≤ 1 := by
  apply confidence_score_bounds
  · simp
  · simp
  · simp
  · intro m hmem c
    simp only [List.mem_cons, List.not_mem_nil, or_false] at hmem
    rcases hmem with h | h | h | h <;> subst h <;> norm_num

/-! ### Evaluator -/

/-- Python's `round(x, 2)`: round `x` to two decimal places, ties to
even (banker's rounding), on the exact rational value. -/
def pyRound2 (q : ℚ) : ℚ :=
  let s : ℚ := q * 100
  let fl : ℤ := ⌊s⌋
  let frac : ℚ := s - fl
  let n : ℤ :=
    if frac < 1/2 then fl
    else if 1/2 < frac then fl + 1
    else if fl % 2 = 0 then fl else fl + 1
  (n : ℚ) / 100

/-- `calculate_metrics(y_true, y_pred)` from crf_al.py lines 409-419:
`correct_total` counts predicted morphs contained in the gold list; an
empty prediction list returns `(0,0,0)` before any division; an empty
gold list with a nonempty prediction is a ZeroDivisionError at the
recall division (`none`); otherwise precision/recall on the x100 scale
and their harmonic mean (0 when precision+recall is 0), each rounded to
two decimals. -/
def calculate_metrics (y_true y_pred : MorphList) : Option (ℚ × ℚ × ℚ) :=
  let correct_total : ℕ := (y_pred.filter (fun m => decide (m ∈ y_true))).length
  if y_pred = [] then some (0, 0, 0)
  else if y_true = [] then none
  else
    let precision : ℚ := (correct_total : ℚ) / (y_pred.length : ℚ) * 100
    let recall_ : ℚ := (correct_total : ℚ) / (y_true.length : ℚ) * 100
    let f1 : ℚ :=
      if precision + recall_ ≠ 0 then 2 * (precision * recall_) / (precision + recall_) else 0
    some (pyRound2 precision, pyRound2 recall_, pyRound2 f1)

/-- Python's `statistics.mean`: the exact arithmetic mean; raises
(`none`) on an empty list. -/
def pyMean (l : List ℚ) : Option ℚ :=
  if l = [] then none else some (l.sum / (l.length : ℚ))

/-- `evaluate_predictions(gold_word, pred_word)` from crf_al.py lines
421-433: per-word metrics over the zipped gold/predicted lists, then the
arithmetic mean of each component across all words (macro-average),
rounded to two decimals. -/
def evaluate_predictions (gold_word pred_word : List MorphList) :
    Option (ℚ × ℚ × ℚ) := do
  let triples ← (gold_word.zip pred_word).mapM (fun gp => calculate_metrics gp.1 gp.2)
  let mp ← pyMean (triples.map (fun t => t.1))
  let mr ← pyMean (triples.map (fun t => t.2.1))
  let mf ← pyMean (triples.map (fun t => t.2.2))
  some (pyRound2 mp, pyRound2 mr, pyRound2 mf)

/-- `F1(gold_word, pred_word)` from crf_random.py lines 235-257: the
same containment count, but `precision = correct_total / pred_total` is
computed before any emptiness guard, so an empty prediction list (or an
empty gold list, at the recall division) raises ZeroDivisionError
(`none`); only the harmonic-mean division is wrapped in try/except,
falling back to `F1 = 0` when `precision + recall == 0`. -/
def F1 (gold_word pred_word : MorphList) : Option (ℚ × ℚ × ℚ) :=
  let correct_total : ℕ := (pred_word.filter (fun m => decide (m ∈ gold_word))).length
  if pred_word.length = 0 then none
  else if gold_word.length = 0 then none
  else
    let precision : ℚ := (correct_total : ℚ) / (pred_word.length : ℚ)
    let recall_ : ℚ := (correct_total : ℚ) / (gold_word.length : ℚ)
    let f1 : ℚ :=
      if precision + recall_ = 0 then 0
      else pyRound2 (2 * (precision * recall_) / (precision + recall_) * 100)
    some (pyRound2 (precision * 100), pyRound2 (recall_ * 100), f1)

/-! ### Claim C7: evaluator empty-prediction handling -/

/-- C7. Empty-prediction scoring, evaluated at the failing input:
`calculate_metrics` (crf_al.py) guards the empty prediction list and
returns `(0,0,0)` as the claim states, but `crf_random.py`'s `F1`
divides `correct_total / pred_total` before any guard, so the same call
raises ZeroDivisionError (embedded as `none`) instead of returning
`(0,0,0)`. -/
theorem empty_prediction_metrics :
    calculate_metrics [['a']] [] = some (0, 0, 0) ∧ F1 [['a']] [] = none := by
  constructor <;> rfl

/-! ### Claim C8: evaluator definition and perfect-match case -/

theorem pyRound2_100 : pyRound2 100 = 100 := by
  have h1 : ((100 : ℚ) * 100) = ((10000 : ℤ) : ℚ) := by norm_num
  have h2 : ⌊(100 : ℚ) * 100⌋ = 10000 := by
    rw [h1, Int.floor_intCast]
  simp only [pyRound2, h2]
  norm_num

theorem calculate_metrics_self (g : MorphList) (hg : g ≠ []) :
    calculate_metrics g g = some (100, 100, 100) := by
  have hlen : (0 : ℚ) < (g.length : ℚ) := by
    exact_mod_cast List.length_pos.2 hg
  have hfil : (g.filter (fun m => decide (m ∈ g))).length = g.length := by
    rw [List.filter_eq_self.2 (fun a ha => decide_eq_true ha)]
  have hdiv : ((g.filter (fun m => decide (m ∈ g))).length : ℚ) / (g.length : ℚ) * 100
      = 100 := by
    rw [hfil, div_self (ne_of_gt hlen), one_mul]
  simp only [calculate_metrics, if_neg hg, hdiv]
  have hf1 : ((100 : ℚ) + 100 ≠ 0) := by norm_num
  rw [if_pos hf1]
  norm_num [pyRound2_100]

theorem mapM_metrics_self :
    ∀ golds : List MorphList, (∀ g ∈ golds, g ≠ []) →
      (golds.zip golds).mapM (fun gp => calculate_metrics gp.1 gp.2)
        = some (List.replicate golds.length ((100 : ℚ), (100 : ℚ), (100 : ℚ))) := by
  intro golds
  induction golds with
  | nil => intro _; rfl
  | cons g gs ih =>
    intro hne
    have hg : g ≠ [] := hne g (List.mem_cons_self g gs)
    have ih' := ih (fun x hx => hne x (List.mem_cons_of_mem g hx))
    simp only [List.zip_cons_cons, List.mapM_cons, calculate_metrics_self g hg, ih',
      List.length_cons, List.replicate_succ]
    rfl

theorem pyMean_replicate_100 (n : ℕ) (hn : n ≠ 0) :
    pyMean (List.replicate n (100 : ℚ)) = some 100 := by
  have hrep : (List.replicate n (100 : ℚ)) ≠ [] := by
    simp [List.replicate, hn]
  rw [pyMean, if_neg hrep]
  congr 1
  rw [List.sum_replicate, List.length_replicate, nsmul_eq_mul, mul_comm,
      mul_div_assoc, div_self (by exact_mod_cast hn), mul_one]

/-- C8. Evaluator definition and perfect-match case: per-word metrics
use containment matching on the x100 scale; a predicted MorphList equal
to the nonempty gold list scores precision = recall = F1 = 100; and
`evaluate_predictions` macro-averages the per-word scores, so a test set
on which every word is predicted perfectly scores (100, 100, 100). -/
theorem evaluator_perfect_match (golds : List MorphList) (hne : golds ≠ [])
    (hmorphs : ∀ g ∈ golds, g ≠ []) :
    (∀ g ∈ golds, calculate_metrics g g = some (100, 100, 100)) ∧
    evaluate_predictions golds golds = some (100, 100, 100) := by
  constructor
  · intro g hg
    exact calculate_metrics_self g (hmorphs g hg)
  · have hn : golds.length ≠ 0 := fun h => hne (List.eq_nil_of_length_eq_zero h)
    simp only [evaluate_predictions, mapM_metrics_self golds hmorphs, Option.bind_eq_bind,
      Option.some_bind, List.map_replicate, pyMean_replicate_100 golds.length hn,
      pyRound2_100]

/-- Witness for C8 at the spec's example `gold = ["un","help","ful"]`. -/
theorem evaluator_perfect_match_witness :
    (∀ g ∈ ([[['u','n'],['h','e','l','p'],['f','u','l']]] : List MorphList),
        calculate_metrics g g = some (100, 100, 100)) ∧
    evaluate_predictions [[['u','n'],['h','e','l','p'],['f','u','l']]]
        [[['u','n'],['h','e','l','p'],['f','u','l']]] = some (100, 100, 100) :=
  evaluator_perfect_match [[['u','n'],['h','e','l','p'],['f','u','l']]]
    (by decide) (by decide)

/-! ### Iteration state manager -/

/-- The arguments of `setup_datadirs` that influence its file operations
(crf_al.py lines 124-147).  Within one invocation every path touched has
the form
`{datadir}/{lang}/{initial_size}/{seed}/{method}/{select_interval}/select{N}/{name}`
where only the cumulative selection size `N` and the file `name` vary
(`datadir`, `lang`, `seed` and `method` are fixed), and the rendering
`(N, name) ↦ path` is injective; the directory component is therefore
identified by `N` below. -/
structure CrfArgs where
  initial_size : String
  select_interval : ℤ
  select_size : ℤ

/-- The file system as seen by `setup_datadirs`: a map from
(directory selection size, file name) to file content; `none` is an
absent file. -/
abbrev FileStore : Type := ℤ × String → Option String

/-- `read_file` from crf_al.py lines 116-118 (reading a missing file
raises, embedded as `none`). -/
def read_file (s : FileStore) (p : ℤ × String) : Option String := s p

/-- `write_file` from crf_al.py lines 120-122: overwrite one file. -/
def write_file (s : FileStore) (p : ℤ × String) (content : String) : FileStore :=
  fun q => if q = p then some content else s q

/-- `setup_datadirs(args)` from crf_al.py lines 124-147, file operations
in source order: when `select_size != 0`, read the previous cycle's
train and increment files (src then tgt), write their concatenations as
the current train files, and copy the previous residual files to the
current select files (`shutil.copy` = read then write, raising on a
missing source).  When `select_size == 0` no file is touched (only the
directory is created). -/
def setup_datadirs (args : CrfArgs) (s : FileStore) : Option FileStore :=
  if args.select_size ≠ 0 then
    let prev : ℤ := args.select_size - args.select_interval
    match read_file s (prev, "train." ++ args.initial_size ++ ".src"),
          read_file s (prev, "increment.src") with
    | some train_src, some increment_src =>
      let s1 : FileStore := write_file s
        (args.select_size, "train." ++ args.initial_size ++ ".src")
        (train_src ++ increment_src)
      match read_file s1 (prev, "train." ++ args.initial_size ++ ".tgt"),
            read_file s1 (prev, "increment.tgt") with
      | some train_tgt, some increment_tgt =>
        let s2 : FileStore := write_file s1
          (args.select_size, "train." ++ args.initial_size ++ ".tgt")
          (train_tgt ++ increment_tgt)
        match read_file s2 (prev, "residual.src") with
        | some residual_src =>
          let s3 : FileStore := write_file s2
            (args.select_size, "select." ++ args.initial_size ++ ".src") residual_src
          match read_file s3 (prev, "residual.tgt") with
          | some residual_tgt =>
            some (write_file s3
              (args.select_size, "select." ++ args.initial_size ++ ".tgt") residual_tgt)
          | none => none
        | none => none
      | _, _ => none
    | _, _ => none
  else some s

/-! ### Path distinctness helpers -/

theorem str_append_ne_of_ne (p : String) {s t : String} (h : s ≠ t) :
    p ++ s ≠ p ++ t := by
  intro he
  apply h
  apply String.ext
  have := congrArg String.data he
  rw [String.data_append, String.data_append] at this
  exact List.append_cancel_left this

theorem head_data_append (pre x : String) (c : Char) (r : List Char)
    (h : pre.data = c :: r) : (pre ++ x).data.head? = some c := by
  rw [String.data_append, h]
  rfl

theorem ne_of_head_data {a b : String} {ca cb : Char}
    (ha : a.data.head? = some ca) (hb : b.data.head? = some cb) (hc : ca ≠ cb) :
    a ≠ b := by
  intro he
  rw [he, hb] at ha
  exact hc (Option.some.inj ha).symm

theorem pair_ne_of_snd_ne {a b : ℤ} {s t : String} (h : s ≠ t) :
    ((a, s) : ℤ × String) ≠ (b, t) := fun he => h (congrArg Prod.snd he)

theorem train_src_ne_train_tgt (i : String) :
    ("train." ++ i ++ ".src" : String) ≠ "train." ++ i ++ ".tgt" :=
  str_append_ne_of_ne ("train." ++ i) (by decide)

theorem select_src_ne_select_tgt (i : String) :
    ("select." ++ i ++ ".src" : String) ≠ "select." ++ i ++ ".tgt" :=
  str_append_ne_of_ne ("select." ++ i) (by decide)

theorem train_head (i suf : String) : (("train." ++ i) ++ suf).data.head? = some 't' := by
  rw [String.data_append, String.data_append]
  rfl

theorem select_head (i suf : String) : (("select." ++ i) ++ suf).data.head? = some 's' := by
  rw [String.data_append, String.data_append]
  rfl

theorem write_file_same (s : FileStore) (p : ℤ × String) (c : String) :
    write_file s p c p = some c := by
  simp [write_file]

theorem write_file_ne (s : FileStore) {p q : ℤ × String} (c : String) (h : q ≠ p) :
    write_file s p c q = s q := by
  simp [write_file, h]

/-! ### Claim C9: iteration state transition -/

/-- C9. Iteration state transition: for cumulative selection size
`n > 0`, `setup_datadirs` produces a store in which the cycle's train
files (src and tgt) are the prior state's train content concatenated
with the prior cycle's increment content, and the cycle's select (pool)
files are exact copies of the prior cycle's residual files; for `n = 0`
the store is returned unchanged (the externally supplied bootstrap
train/pool files are used as they are). -/
theorem iteration_state_transition (args : CrfArgs) (s : FileStore)
    (train_src increment_src train_tgt increment_tgt residual_src residual_tgt : String)
    (h1 : s (args.select_size - args.select_interval,
        "train." ++ args.initial_size ++ ".src") = some train_src)
    (h2 : s (args.select_size - args.select_interval, "increment.src")
        = some increment_src)
    (h3 : s (args.select_size - args.select_interval,
        "train." ++ args.initial_size ++ ".tgt") = some train_tgt)
    (h4 : s (args.select_size - args.select_interval, "increment.tgt")
        = some increment_tgt)
    (h5 : s (args.select_size - args.select_interval, "residual.src")
        = some residual_src)
    (h6 : s (args.select_size - args.select_interval, "residual.tgt")
        = some residual_tgt) :
    (0 < args.select_size →
      ∃ s' : FileStore, setup_datadirs args s = some s' ∧
        s' (args.select_size, "train." ++ args.initial_size ++ ".src")
            = some (train_src ++ increment_src) ∧
        s' (args.select_size, "train." ++ args.initial_size ++ ".tgt")
            = some (train_tgt ++ increment_tgt) ∧
        s' (args.select_size, "select." ++ args.initial_size ++ ".src")
            = some residual_src ∧
        s' (args.select_size, "select." ++ args.initial_size ++ ".tgt")
            = some residual_tgt) ∧
    (args.select_size = 0 → setup_datadirs args s = some s) := by
  constructor
  · intro hpos
    have hne : args.select_size ≠ 0 := by omega
    -- file-name distinctness facts
    have hTT_TS : ("train." ++ args.initial_size ++ ".tgt" : String)
        ≠ "train." ++ args.initial_size ++ ".src" :=
      Ne.symm (train_src_ne_train_tgt args.initial_size)
    have hIT_TS : ("increment.tgt" : String)
        ≠ "train." ++ args.initial_size ++ ".src" :=
      ne_of_head_data rfl (train_head args.initial_size ".src") (by decide)
    have hRS_TS : ("residual.src" : String)
        ≠ "train." ++ args.initial_size ++ ".src" :=
      ne_of_head_data rfl (train_head args.initial_size ".src") (by decide)
    have hRS_TT : ("residual.src" : String)
        ≠ "train." ++ args.initial_size ++ ".tgt" :=
      ne_of_head_data rfl (train_head args.initial_size ".tgt") (by decide)
    have hRT_TS : ("residual.tgt" : String)
        ≠ "train." ++ args.initial_size ++ ".src" :=
      ne_of_head_data rfl (train_head args.initial_size ".src") (by decide)
    have hRT_TT : ("residual.tgt" : String)
        ≠ "train." ++ args.initial_size ++ ".tgt" :=
      ne_of_head_data rfl (train_head args.initial_size ".tgt") (by decide)
    have hRT_SS : ("residual.tgt" : String)
        ≠ "select." ++ args.initial_size ++ ".src" :=
      ne_of_head_data rfl (select_head args.initial_size ".src") (by decide)
    have hTS_SS : ("train." ++ args.initial_size ++ ".src" : String)
        ≠ "select." ++ args.initial_size ++ ".src" :=
      ne_of_head_data (train_head args.initial_size ".src")
        (select_head args.initial_size ".src") (by decide)
    have hTS_ST : ("train." ++ args.initial_size ++ ".src" : String)
        ≠ "select." ++ args.initial_size ++ ".tgt" :=
      ne_of_head_data (train_head args.initial_size ".src")
        (select_head args.initial_size ".tgt") (by decide)
    have hTT_SS : ("train." ++ args.initial_size ++ ".tgt" : String)
        ≠ "select." ++ args.initial_size ++ ".src" :=
      ne_of_head_data (train_head args.initial_size ".tgt")
        (select_head args.initial_size ".src") (by decide)
    have hTT_ST : ("train." ++ args.initial_size ++ ".tgt" : String)
        ≠ "select." ++ args.initial_size ++ ".tgt" :=
      ne_of_head_data (train_head args.initial_size ".tgt")
        (select_head args.initial_size ".tgt") (by decide)
    have hSS_ST : ("select." ++ args.initial_size ++ ".src" : String)
        ≠ "select." ++ args.initial_size ++ ".tgt" :=
      select_src_ne_select_tgt args.initial_size
    -- evaluate the reads performed after each write
    have hr3 : write_file s
        (args.select_size, "train." ++ args.initial_size ++ ".src")
        (train_src ++ increment_src)
        (args.select_size - args.select_interval,
          "train." ++ args.initial_size ++ ".tgt") = some train_tgt :=
      (write_file_ne s _ (pair_ne_of_snd_ne hTT_TS)).trans h3
    have hr4 : write_file s
        (args.select_size, "train." ++ args.initial_size ++ ".src")
        (train_src ++ increment_src)
        (args.select_size - args.select_interval, "increment.tgt")
          = some increment_tgt :=
      (write_file_ne s _ (pair_ne_of_snd_ne hIT_TS)).trans h4
    have hr5 : write_file (write_file s
        (args.select_size, "train." ++ args.initial_size ++ ".src")
        (train_src ++ increment_src))
        (args.select_size, "train." ++ args.initial_size ++ ".tgt")
        (train_tgt ++ increment_tgt)
        (args.select_size - args.select_interval, "residual.src")
          = some residual_src := by
      rw [write_file_ne _ _ (pair_ne_of_snd_ne hRS_TT),
          write_file_ne _ _ (pair_ne_of_snd_ne hRS_TS)]
      exact h5
    have hr6 : write_file (write_file (write_file s
        (args.select_size, "train." ++ args.initial_size ++ ".src")
        (train_src ++ increment_src))
        (args.select_size, "train." ++ args.initial_size ++ ".tgt")
        (train_tgt ++ increment_tgt))
        (args.select_size, "select." ++ args.initial_size ++ ".src") residual_src
        (args.select_size - args.select_interval, "residual.tgt")
          = some residual_tgt := by
      rw [write_file_ne _ _ (pair_ne_of_snd_ne hRT_SS),
          write_file_ne _ _ (pair_ne_of_snd_ne hRT_TT),
          write_file_ne _ _ (pair_ne_of_snd_ne hRT_TS)]
      exact h6
    refine ⟨write_file (write_file (write_file (write_file s
        (args.select_size, "train." ++ args.initial_size ++ ".src")
        (train_src ++ increment_src))
        (args.select_size, "train." ++ args.initial_size ++ ".tgt")
        (train_tgt ++ increment_tgt))
        (args.select_size, "select." ++ args.initial_size ++ ".src") residual_src)
        (args.select_size, "select." ++ args.initial_size ++ ".tgt") residual_tgt,
        ?_, ?_, ?_, ?_, ?_⟩
    · simp only [setup_datadirs, if_pos hne, read_file, h1, h2, hr3, hr4, hr5, hr6]
    · rw [write_file_ne _ _ (pair_ne_of_snd_ne hTS_ST),
          write_file_ne _ _ (pair_ne_of_snd_ne hTS_SS),
          write_file_ne _ _ (pair_ne_of_snd_ne (Ne.symm hTT_TS))]
      exact write_file_same _ _ _
    · rw [write_file_ne _ _ (pair_ne_of_snd_ne hTT_ST),
          write_file_ne _ _ (pair_ne_of_snd_ne hTT_SS)]
      exact write_file_same _ _ _
    · rw [write_file_ne _ _ (pair_ne_of_snd_ne hSS_ST)]
      exact write_file_same _ _ _
    · exact write_file_same _ _ _
  · intro h0
    simp [setup_datadirs, h0]

/-- A concrete six-file store for the prior cycle at selection size 0,
used to witness the state transition to selection size 50. -/
def demoStore : FileStore := fun p =>
  if p = ((0 : ℤ), "train.100.src") then some "T"
  else if p = ((0 : ℤ), "increment.src") then some "I"
  else if p = ((0 : ℤ), "train.100.tgt") then some "U"
  else if p = ((0 : ℤ), "increment.tgt") then some "J"
  else if p = ((0 : ℤ), "residual.src") then some "R"
  else if p = ((0 : ℤ), "residual.tgt") then some "Q"
  else none

/-- Witness for C9 at `initial_size = "100"`, `select_interval = 50`,
`select_size = 50` over `demoStore`. -/
theorem iteration_state_transition_witness :
    ((0 : ℤ) < 50) ∧
    ∃ s' : FileStore,
      setup_datadirs ⟨"100", 50, 50⟩ demoStore = some s' ∧
      s' (50, "train." ++ "100" ++ ".src") = some ("T" ++ "I") ∧
      s' (50, "train." ++ "100" ++ ".tgt") = some ("U" ++ "J") ∧
      s' (50, "select." ++ "100" ++ ".src") = some "R" ∧
      s' (50, "select." ++ "100" ++ ".tgt") = some "Q" :=
  ⟨by decide,
    (iteration_state_transition ⟨"100", 50, 50⟩ demoStore "T" "I" "U" "J" "R" "Q"
      (by decide) (by decide) (by decide) (by decide) (by decide) (by decide)).1
      (by decide)⟩
